import Mathlib

/-!
Shallow embedding of `src/client/cfrand.py` (the `CFRand` generator) and
verification of its specified behaviour.

Bytes are modelled as `Nat` values; the well-formedness predicate `CFRand.WF`
records that the entropy stream and the seed produce values below `256`.
The local entropy source `os.urandom` is modelled as an infinite byte stream
together with a cursor counting the bytes consumed so far; all operations are
deterministic functions of that stream.  The unbounded `while True` loop of
`_randbelow` is modelled with an explicit fuel bound: `Outcome.diverge` means
the loop has not accepted a candidate within `fuel` iterations.
-/

namespace CFRand

/-- State of a constructed `CFRand` generator.  `seed` is `self._server_bytes`
(exactly 64 bytes, enforced by `_fetch_seed` before any use); `entropy` is the
platform entropy stream (`os.urandom`): `entropy n` is the `n`-th byte it ever
produces; `pos` counts the entropy bytes consumed so far. -/
structure Gen where
  seed : Fin 64 → Nat
  entropy : Nat → Nat
  pos : Nat

/-- Well-formedness: the entropy stream and the seed consist of bytes. -/
def WF (g : Gen) : Prop :=
  (∀ n, g.entropy n < 256) ∧ ∀ i : Fin 64, g.seed i < 256

/-- `CFRand._xor_block`: draw 64 fresh entropy bytes with `os.urandom(64)` and
XOR them byte-wise with the 64-byte server seed.  (`zip` truncates to the
shorter operand; both operands are 64 bytes here.)  Returns the block and the
generator state with the entropy cursor advanced. -/
def xor_block (g : Gen) : List Nat × Gen :=
  ((List.finRange 64).map fun i => g.entropy (g.pos + i.val) ^^^ g.seed i,
   { g with pos := g.pos + 64 })

/-- The `while len(output) < length` loop of `CFRand._random_bytes` appends one
`_xor_block()` (64 bytes) per iteration, so for a positive requested length it
runs exactly `ceil(length / 64)` times; `collectBlocks n` is the concatenation
of the next `n` consecutive blocks. -/
def collectBlocks : Nat → Gen → List Nat × Gen
  | 0, g => ([], g)
  | n + 1, g =>
    ((xor_block g).1 ++ (collectBlocks n (xor_block g).2).1,
     (collectBlocks n (xor_block g).2).2)

/-- `CFRand._random_bytes`: `length <= 0` returns the empty byte string at
once (no entropy consumed, no error); otherwise concatenate `_xor_block()`
outputs until at least `length` bytes are available and truncate
(`output[:length]`) to exactly `length` bytes. -/
def random_bytes (g : Gen) (length : Int) : List Nat × Gen :=
  if length ≤ 0 then ([], g)
  else
    ((collectBlocks ((length.toNat + 63) / 64) g).1.take length.toNat,
     (collectBlocks ((length.toNat + 63) / 64) g).2)

/-- `int.from_bytes(data, "big")`: big-endian interpretation of a byte
string as an unsigned integer. -/
def fromBytesBE (data : List Nat) : Nat :=
  data.foldl (fun acc b => acc * 256 + b) 0

/-- `CFRand._randbits`: read `byte_len = (k + 7) // 8` bytes from
`_random_bytes`, interpret them big-endian, and shift right by
`excess = byte_len * 8 - k` bits (the source skips the shift when
`excess == 0`, which is the identity shift). -/
def randbits (k : Nat) (g : Gen) : Nat × Gen :=
  (fromBytesBE (random_bytes g (((k + 7) / 8 : Nat) : Int)).1 >>> ((k + 7) / 8 * 8 - k),
   (random_bytes g (((k + 7) / 8 : Nat) : Int)).2)

/-- Fuel-bounded halving count; the first argument is an upper bound on the
number of halvings, so `bitLenAux n n` terminates structurally. -/
def bitLenAux : Nat → Nat → Nat
  | _, 0 => 0
  | 0, _ + 1 => 0
  | fuel + 1, m + 1 => bitLenAux fuel ((m + 1) / 2) + 1

/-- Python's `int.bit_length()` on a non-negative integer: the number of bits
needed to write `n` in binary, i.e. the least `b` with `n < 2 ^ b`. -/
def bitLength (n : Nat) : Nat := bitLenAux n n

/-- The spec's error kinds, mapped onto the exceptions the source raises:
`ValueError("upper must be positive")` in `_randbelow` is `DomainError`;
the two `ValueError`s of `randrange` (zero step, empty range) are
`RangeError`; the `IndexError` of `choice` is `EmptyInputError`; the
`RuntimeError`s of `_fetch_seed` are `SeedError`. -/
inductive Err where
  | domainError
  | rangeError
  | emptyInputError
  | seedError
deriving DecidableEq

/-- Result of an operation: a returned value, a raised error, or `diverge`,
meaning the rejection-sampling loop has not accepted a candidate within the
modelling fuel (the `while True` loop in the source is still running). -/
inductive Outcome (α : Type) where
  | ok : α → Outcome α
  | err : Err → Outcome α
  | diverge : Outcome α
deriving DecidableEq

/-- The `while True` loop of `CFRand._randbelow`, run for at most `fuel`
iterations: draw `candidate = self._randbits(bit_size)` and return the first
candidate strictly below `upper`. -/
def randbelowLoop (upper bit_size : Nat) : Nat → Gen → Outcome Nat × Gen
  | 0, g => (.diverge, g)
  | fuel + 1, g =>
    if (randbits bit_size g).1 < upper then (.ok (randbits bit_size g).1, (randbits bit_size g).2)
    else randbelowLoop upper bit_size fuel (randbits bit_size g).2

/-- `CFRand._randbelow`: raise `ValueError` (`DomainError`) for `upper <= 0`
before touching any entropy; otherwise rejection-sample candidates of
`bit_size = upper.bit_length()` bits. -/
def randbelow (fuel : Nat) (upper : Int) (g : Gen) : Outcome Nat × Gen :=
  if upper ≤ 0 then (.err .domainError, g)
  else randbelowLoop upper.toNat (bitLength upper.toNat) fuel g

/-- `CFRand.random`: `self._randbits(53) / (1 << 53)`.  The quotient is
modelled exactly in `ℚ`: the numerator is below `2 ^ 53`, so the Python float
division is exact (every such quotient is a double-precision value). -/
def random (g : Gen) : ℚ × Gen :=
  (((randbits 53 g).1 : ℚ) / 2 ^ 53, (randbits 53 g).2)

/-- The `start` of the progression after the one-argument normalization
(`if stop is None: stop = start; start = 0`) in `CFRand.randrange`. -/
def rrStart (start : Int) (stop? : Option Int) : Int :=
  match stop? with
  | none => 0
  | some _ => start

/-- The `stop` of the progression after the one-argument normalization in
`CFRand.randrange`. -/
def rrStop (start : Int) (stop? : Option Int) : Int :=
  match stop? with
  | none => start
  | some s => s

/-- `len(range(start, stop, step))` (CPython's `range_length`), defined for
`step ≠ 0`: the number of elements of the progression `start, start + step,
...` that lie before `stop`. -/
def rangeLen (start stop step : Int) : Nat :=
  if 0 < step then
    if start < stop then ((stop - start - 1) / step + 1).toNat else 0
  else
    if stop < start then ((start - stop - 1) / (-step) + 1).toNat else 0

/-- `CFRand.randrange`: normalize the one-argument form, reject a zero step
and an empty progression (`RangeError`), then pick
`index = self._randbelow(count)` and return `range(start, stop, step)[index]`,
which is `start + index * step`. -/
def randrange (fuel : Nat) (start : Int) (stop? : Option Int) (step : Int) (g : Gen) :
    Outcome Int × Gen :=
  if step = 0 then (.err .rangeError, g)
  else
    if rangeLen (rrStart start stop?) (rrStop start stop?) step ≤ 0 then (.err .rangeError, g)
    else
      match (randbelow fuel ((rangeLen (rrStart start stop?) (rrStop start stop?) step : Nat) : Int) g).1 with
      | .ok index =>
        (.ok (rrStart start stop? + (index : Int) * step),
         (randbelow fuel ((rangeLen (rrStart start stop?) (rrStop start stop?) step : Nat) : Int) g).2)
      | .err e =>
        (.err e,
         (randbelow fuel ((rangeLen (rrStart start stop?) (rrStop start stop?) step : Nat) : Int) g).2)
      | .diverge =>
        (.diverge,
         (randbelow fuel ((rangeLen (rrStart start stop?) (rrStop start stop?) step : Nat) : Int) g).2)

/-- `CFRand.choice`: raise `IndexError` (`EmptyInputError`) on an empty
sequence, otherwise return the element at index `self._randbelow(len(seq))`.
The accepted index is always in bounds, so the `getD` default (the head of
the sequence) is never reached. -/
def choice {α : Type} (fuel : Nat) (seq : List α) (g : Gen) : Outcome α × Gen :=
  match seq with
  | [] => (.err .emptyInputError, g)
  | a :: rest =>
    match (randbelow fuel (((a :: rest).length : Nat) : Int) g).1 with
    | .ok index =>
      (.ok ((a :: rest).getD index a), (randbelow fuel (((a :: rest).length : Nat) : Int) g).2)
    | .err e => (.err e, (randbelow fuel (((a :: rest).length : Nat) : Int) g).2)
    | .diverge => (.diverge, (randbelow fuel (((a :: rest).length : Nat) : Int) g).2)

/-- The parallel assignment `x[i], x[j] = x[j], x[i]` on a list; indices out
of range (which never occur in `shuffle`) leave the list unchanged. -/
def swap {α : Type} (l : List α) (i j : Nat) : List α :=
  match l[i]?, l[j]? with
  | some a, some b => (l.set i b).set j a
  | _, _ => l

/-- The `for i in range(len(x) - 1, 0, -1)` loop of `CFRand.shuffle`; the
first list argument counts the current value of `i`, which runs down to `1`
(the loop body never runs with `i = 0`). -/
def shuffleLoop {α : Type} (fuel : Nat) : Nat → List α → Gen → Outcome (List α) × Gen
  | 0, x, g => (.ok x, g)
  | i + 1, x, g =>
    match (randbelow fuel ((i + 1 + 1 : Nat) : Int) g).1 with
    | .ok j => shuffleLoop fuel i (swap x (i + 1) j) (randbelow fuel ((i + 1 + 1 : Nat) : Int) g).2
    | .err e => (.err e, (randbelow fuel ((i + 1 + 1 : Nat) : Int) g).2)
    | .diverge => (.diverge, (randbelow fuel ((i + 1 + 1 : Nat) : Int) g).2)

/-- `CFRand.shuffle`: return immediately for `len(x) < 2`; otherwise run the
Fisher–Yates downward loop starting at `i = len(x) - 1`.  The mutated list is
returned in place of Python's in-place update. -/
def shuffle {α : Type} (fuel : Nat) (x : List α) (g : Gen) : Outcome (List α) × Gen :=
  if x.length < 2 then (.ok x, g)
  else shuffleLoop fuel (x.length - 1) x g

/-- Value of one hexadecimal digit, as accepted by `bytes.fromhex`. -/
def hexDigit (c : Char) : Option Nat :=
  if '0' ≤ c ∧ c ≤ '9' then some (c.toNat - '0'.toNat)
  else if 'a' ≤ c ∧ c ≤ 'f' then some (c.toNat - 'a'.toNat + 10)
  else if 'A' ≤ c ∧ c ≤ 'F' then some (c.toNat - 'A'.toNat + 10)
  else none

/-- ASCII whitespace as CPython's `Py_ISSPACE` recognizes it: space, tab,
newline, vertical tab, form feed, carriage return. -/
def isSpaceAscii (c : Char) : Bool :=
  c == ' ' || c == '\t' || c == '\n' || c == '\x0b' || c == '\x0c' || c == '\r'

/-- The scanning loop of CPython's `_PyBytes_FromHex`: ASCII whitespace is
skipped before each digit pair, then the two hexadecimal digits of a pair
must be adjacent (whitespace or end of input between them is a
`ValueError`, here `none`). -/
def hexPairs : List Char → Option (List Nat)
  | [] => some []
  | c1 :: rest =>
    if isSpaceAscii c1 then hexPairs rest
    else
      match rest with
      | [] => none
      | c2 :: rest2 =>
        match hexDigit c1, hexDigit c2, hexPairs rest2 with
        | some hi, some lo, some bs => some ((hi * 16 + lo) :: bs)
        | _, _, _ => none

/-- `bytes.fromhex`: hexadecimal decoding, skipping ASCII whitespace between
digit pairs only; raises `ValueError` (here `none`) on any other character,
an odd digit count, or whitespace splitting a pair. -/
def fromhex (s : String) : Option (List Nat) :=
  hexPairs s.data

/-- `CFRand._fetch_seed`, after a successful HTTP fetch and JSON parse: the
argument is `payload.get("hash_sha3_512")` (`none` when the field is
missing).  Python's `if not hex_digest` also treats an empty string as a
missing field.  A hex-decoding failure or a decoded length other than 64
bytes raises `RuntimeError` (`SeedError`); on success the decoded digest
becomes the generator's `_server_bytes`. -/
def fetch_seed (field? : Option String) : Except Err (List Nat) :=
  match field? with
  | none => .error .seedError
  | some s =>
    if s.isEmpty then .error .seedError
    else
      match fromhex s with
      | none => .error .seedError
      | some server_bytes =>
        if server_bytes.length = 64 then .ok server_bytes else .error .seedError

/-- The `i`-th candidate `_randbelow`'s loop would examine: the value of the
`(i+1)`-st call to `_randbits(bit_size)` along the entropy stream, together
with the state after that call. -/
def nthCand (bit_size : Nat) : Nat → Gen → Nat × Gen
  | 0, g => randbits bit_size g
  | n + 1, g => nthCand bit_size n (randbits bit_size g).2

/-- A generator whose seed and entropy stream are identically zero; used to
instantiate universally quantified statements at a concrete input. -/
def gZero : Gen :=
  { seed := fun _ => 0, entropy := fun _ => 0, pos := 0 }

/-- A generator with zero seed and entropy stream constantly `0xFF`; every
`_xor_block` byte is then `255`. -/
def gFF : Gen :=
  { seed := fun _ => 0, entropy := fun _ => 255, pos := 0 }

theorem wf_gZero : WF gZero :=
  ⟨fun _ => by norm_num [gZero], fun _ => by norm_num [gZero]⟩

theorem bitLenAux_lt (fuel : Nat) : ∀ n, n ≤ fuel → n < 2 ^ bitLenAux fuel n := by
  induction fuel with
  | zero =>
    intro n hn
    interval_cases n
    simp [bitLenAux]
  | succ fuel ih =>
    intro n hn
    match n with
    | 0 => simp [bitLenAux]
    | m + 1 =>
      have hhalf : (m + 1) / 2 ≤ fuel := by
        have := Nat.div_lt_self (Nat.succ_pos m) (by norm_num : 1 < 2)
        omega
      have hrec := ih ((m + 1) / 2) hhalf
      have hdm := Nat.div_add_mod (m + 1) 2
      have hmod : (m + 1) % 2 < 2 := Nat.mod_lt _ (by norm_num)
      show m + 1 < 2 ^ (bitLenAux fuel ((m + 1) / 2) + 1)
      rw [pow_succ]
      omega

theorem bitLenAux_min (fuel : Nat) : ∀ n b, n ≤ fuel → n < 2 ^ b → bitLenAux fuel n ≤ b := by
  induction fuel with
  | zero =>
    intro n b hn _
    interval_cases n
    simp [bitLenAux]
  | succ fuel ih =>
    intro n b hn hb
    match n with
    | 0 => simp [bitLenAux]
    | m + 1 =>
      match b with
      | 0 => omega
      | b + 1 =>
        have hhalf : (m + 1) / 2 ≤ fuel := by
          have := Nat.div_lt_self (Nat.succ_pos m) (by norm_num : 1 < 2)
          omega
        have hlt : (m + 1) / 2 < 2 ^ b := by
          rw [Nat.div_lt_iff_lt_mul (by norm_num : 0 < 2)]
          calc m + 1 < 2 ^ (b + 1) := hb
            _ = 2 ^ b * 2 := by rw [pow_succ]
        have := ih ((m + 1) / 2) b hhalf hlt
        show bitLenAux fuel ((m + 1) / 2) + 1 ≤ b + 1
        omega

/-- `bitLength n` has its defining property: `n < 2 ^ bitLength n`. -/
theorem bitLength_lt (n : Nat) : n < 2 ^ bitLength n :=
  bitLenAux_lt n n le_rfl

/-- `bitLength n` is the least `b` with `n < 2 ^ b`. -/
theorem bitLength_min (n b : Nat) (h : n < 2 ^ b) : bitLength n ≤ b :=
  bitLenAux_min n n b le_rfl h

theorem xor_block_mem (g : Gen) (hg : WF g) :
    ∀ b ∈ (xor_block g).1, b < 256 := by
  intro b hb
  simp only [xor_block, List.mem_map] at hb
  obtain ⟨i, _, hi⟩ := hb
  have h1 : g.entropy (g.pos + i.val) < 2 ^ 8 := hg.1 _
  have h2 : g.seed i < 2 ^ 8 := hg.2 i
  have := Nat.xor_lt_two_pow h1 h2
  omega

theorem xor_block_length (g : Gen) : (xor_block g).1.length = 64 := by
  simp [xor_block]

theorem wf_xor_block (g : Gen) (hg : WF g) : WF (xor_block g).2 := hg

theorem collectBlocks_length (n : Nat) : ∀ g : Gen, (collectBlocks n g).1.length = 64 * n := by
  induction n with
  | zero => intro g; simp [collectBlocks]
  | succ n ih =>
    intro g
    simp [collectBlocks, xor_block_length, ih]
    ring

theorem collectBlocks_mem (n : Nat) :
    ∀ g : Gen, WF g → ∀ b ∈ (collectBlocks n g).1, b < 256 := by
  induction n with
  | zero => intro g _ b hb; simp [collectBlocks] at hb
  | succ n ih =>
    intro g hg b hb
    simp only [collectBlocks, List.mem_append] at hb
    rcases hb with hb | hb
    · exact xor_block_mem g hg b hb
    · exact ih _ (wf_xor_block g hg) b hb

theorem random_bytes_length (g : Gen) (length : Int) (h : 0 < length) :
    (random_bytes g length).1.length = length.toNat := by
  have hn : ¬ length ≤ 0 := by omega
  simp only [random_bytes, if_neg hn, List.length_take, collectBlocks_length]
  have hdm := Nat.div_add_mod (length.toNat + 63) 64
  have hmod : (length.toNat + 63) % 64 < 64 := Nat.mod_lt _ (by norm_num)
  omega

theorem random_bytes_mem (g : Gen) (hg : WF g) (length : Int) :
    ∀ b ∈ (random_bytes g length).1, b < 256 := by
  intro b hb
  by_cases h : length ≤ 0
  · simp [random_bytes, if_pos h] at hb
  · simp only [random_bytes, if_neg h] at hb
    exact collectBlocks_mem _ g hg b (List.take_subset _ _ hb)

theorem foldl_bytes_le (data : List Nat) (h : ∀ b ∈ data, b < 256) :
    ∀ acc : Nat,
      data.foldl (fun a b => a * 256 + b) acc ≤ acc * 256 ^ data.length + (256 ^ data.length - 1) := by
  induction data with
  | nil => intro acc; simp
  | cons c rest ih =>
    intro acc
    simp only [List.foldl_cons, List.length_cons]
    have hc : c < 256 := h c (List.mem_cons_self _ _)
    have hrest : ∀ b ∈ rest, b < 256 := fun b hb => h b (List.mem_cons_of_mem _ hb)
    have h1 := ih hrest (acc * 256 + c)
    have ht : 1 ≤ 256 ^ rest.length := Nat.one_le_pow _ _ (by norm_num)
    have hct : c * 256 ^ rest.length ≤ 255 * 256 ^ rest.length :=
      Nat.mul_le_mul_right _ (by omega)
    have hexp : (acc * 256 + c) * 256 ^ rest.length
        = acc * 256 * 256 ^ rest.length + c * 256 ^ rest.length := by ring
    have hgoal : acc * 256 ^ (rest.length + 1) = acc * 256 * 256 ^ rest.length := by
      rw [pow_succ]; ring
    have hpow : 256 ^ (rest.length + 1) = 256 * 256 ^ rest.length := by
      rw [pow_succ]; ring
    rw [hexp] at h1
    rw [hgoal, hpow]
    omega

/-- Big-endian byte strings denote integers below `256 ^ length`. -/
theorem fromBytesBE_lt (data : List Nat) (h : ∀ b ∈ data, b < 256) :
    fromBytesBE data < 256 ^ data.length := by
  have := foldl_bytes_le data h 0
  have ht : 1 ≤ 256 ^ data.length := Nat.one_le_pow _ _ (by norm_num)
  simp only [Nat.zero_mul, Nat.zero_add] at this
  unfold fromBytesBE
  omega

/-- On a well-formed generator, `_randbits(k)` produces a value below `2 ^ k`. -/
theorem randbits_lt (k : Nat) (g : Gen) (hg : WF g) : (randbits k g).1 < 2 ^ k := by
  unfold randbits
  simp only
  have hdm := Nat.div_add_mod (k + 7) 8
  have hmod : (k + 7) % 8 < 8 := Nat.mod_lt _ (by norm_num)
  rcases Nat.eq_zero_or_pos ((k + 7) / 8) with hz | hpos
  · have hk0 : k = 0 := by omega
    subst hk0
    simp [hz, random_bytes, fromBytesBE]
  · have hlen : (random_bytes g (((k + 7) / 8 : Nat) : Int)).1.length = (k + 7) / 8 := by
      rw [random_bytes_length]
      · exact Int.toNat_natCast _
      · exact_mod_cast hpos
    have hmem := random_bytes_mem g hg (((k + 7) / 8 : Nat) : Int)
    have hval := fromBytesBE_lt _ hmem
    rw [hlen] at hval
    have hval' : fromBytesBE (random_bytes g (((k + 7) / 8 : Nat) : Int)).1
        < 2 ^ (8 * ((k + 7) / 8)) := by
      calc fromBytesBE (random_bytes g (((k + 7) / 8 : Nat) : Int)).1
          < 256 ^ ((k + 7) / 8) := hval
        _ = 2 ^ (8 * ((k + 7) / 8)) := by
          rw [pow_mul]
          norm_num
    rw [Nat.shiftRight_eq_div_pow]
    have hk8 : k ≤ 8 * ((k + 7) / 8) := by omega
    rw [Nat.div_lt_iff_lt_mul (Nat.pos_pow_of_pos _ (by norm_num))]
    calc fromBytesBE (random_bytes g (((k + 7) / 8 : Nat) : Int)).1
        < 2 ^ (8 * ((k + 7) / 8)) := hval'
      _ ≤ 2 ^ k * 2 ^ ((k + 7) / 8 * 8 - k) := by
        rw [← pow_add]
        apply Nat.pow_le_pow_right (by norm_num)
        omega

/-- An accepted candidate of `_randbelow`'s loop is strictly below `upper`. -/
theorem randbelowLoop_ok_lt (upper bit_size : Nat) :
    ∀ (fuel : Nat) (g : Gen) (v : Nat),
      (randbelowLoop upper bit_size fuel g).1 = .ok v → v < upper := by
  intro fuel
  induction fuel with
  | zero => intro g v h; simp [randbelowLoop] at h
  | succ n ih =>
    intro g v h
    unfold randbelowLoop at h
    by_cases hc : (randbits bit_size g).1 < upper
    · rw [if_pos hc] at h
      simp only [Outcome.ok.injEq] at h
      omega
    · rw [if_neg hc] at h
      exact ih _ v h

/-- `_randbelow`'s loop never raises: its only exits are acceptance and
running out of fuel. -/
theorem randbelowLoop_ne_err (upper bit_size : Nat) :
    ∀ (fuel : Nat) (g : Gen) (e : Err),
      (randbelowLoop upper bit_size fuel g).1 ≠ .err e := by
  intro fuel
  induction fuel with
  | zero => intro g e h; simp [randbelowLoop] at h
  | succ n ih =>
    intro g e h
    unfold randbelowLoop at h
    by_cases hc : (randbits bit_size g).1 < upper
    · rw [if_pos hc] at h
      simp at h
    · rw [if_neg hc] at h
      exact ih _ e h

/-- Within the fuel bound, `_randbelow`'s loop returns exactly the first
drawn candidate that is strictly below `upper`. -/
theorem randbelowLoop_first (upper bit_size : Nat) :
    ∀ (i : Nat) (fuel : Nat) (g : Gen), i < fuel →
      (∀ m, m < i → ¬ (nthCand bit_size m g).1 < upper) →
      (nthCand bit_size i g).1 < upper →
      randbelowLoop upper bit_size fuel g
        = (.ok (nthCand bit_size i g).1, (nthCand bit_size i g).2) := by
  intro i
  induction i with
  | zero =>
    intro fuel g hfuel _ hacc
    match fuel with
    | n + 1 =>
      show randbelowLoop upper bit_size (n + 1) g = _
      unfold randbelowLoop
      rw [if_pos (show (randbits bit_size g).1 < upper from hacc)]
      rfl
  | succ i ih =>
    intro fuel g hfuel hmin hacc
    match fuel with
    | n + 1 =>
      have h0 : ¬ (randbits bit_size g).1 < upper := hmin 0 (Nat.succ_pos i)
      show randbelowLoop upper bit_size (n + 1) g = _
      unfold randbelowLoop
      rw [if_neg h0]
      have hmin' : ∀ m, m < i → ¬ (nthCand bit_size m (randbits bit_size g).2).1 < upper :=
        fun m hm => hmin (m + 1) (by omega)
      exact ih n (randbits bit_size g).2 (by omega) hmin' hacc

/-- An accepted result of `_randbelow` is below the (positive) bound. -/
theorem randbelow_ok_lt (fuel : Nat) (upper : Int) (g : Gen) (v : Nat)
    (h : (randbelow fuel upper g).1 = .ok v) : v < upper.toNat := by
  unfold randbelow at h
  by_cases hu : upper ≤ 0
  · rw [if_pos hu] at h
    simp at h
  · rw [if_neg hu] at h
    exact randbelowLoop_ok_lt _ _ fuel g v h

/-- `_randbelow` raises only for a non-positive bound. -/
theorem randbelow_err (fuel : Nat) (upper : Int) (g : Gen) (e : Err)
    (h : (randbelow fuel upper g).1 = .err e) : upper ≤ 0 ∧ e = .domainError := by
  unfold randbelow at h
  by_cases hu : upper ≤ 0
  · rw [if_pos hu] at h
    simp only [Outcome.err.injEq] at h
    exact ⟨hu, h.symm⟩
  · rw [if_neg hu] at h
    exact absurd h (randbelowLoop_ne_err _ _ fuel g e)

/-- Swapping two in-range positions of a list permutes it. -/
theorem swap_perm {α : Type} (l : List α) (i j : Nat) : (swap l i j).Perm l := by
  have instD : DecidableEq α := Classical.decEq α
  unfold swap
  cases hi : l[i]? with
  | none => exact List.Perm.refl l
  | some a =>
    cases hj : l[j]? with
    | none => exact List.Perm.refl l
    | some b =>
      rw [List.getElem?_eq_some_iff] at hi hj
      obtain ⟨hi', ha⟩ := hi
      obtain ⟨hj', hb⟩ := hj
      rw [List.perm_iff_count]
      intro c
      have hj2 : j < (l.set i b).length := by simpa using hj'
      rw [List.count_set a c (l.set i b) j hj2, List.count_set b c l i hi']
      rw [List.getElem_set hj2]
      have hma : a ∈ l := ha ▸ List.getElem_mem hi'
      have hmb : b ∈ l := hb ▸ List.getElem_mem hj'
      rw [ha, hb]
      by_cases hij : i = j
      · subst hij
        have hab : a = b := ha.symm.trans hb
        subst hab
        simp only [if_pos rfl, beq_iff_eq]
        by_cases hac : a = c
        · have : 0 < List.count c l := List.count_pos_iff.mpr (hac ▸ hma)
          simp [hac]
          omega
        · simp [hac]
      · rw [if_neg hij]
        simp only [beq_iff_eq]
        by_cases hac : a = c <;> by_cases hbc : b = c
        · have h1 : 0 < List.count c l := List.count_pos_iff.mpr (hac ▸ hma)
          simp [hac, hbc]
          omega
        · have h1 : 0 < List.count c l := List.count_pos_iff.mpr (hac ▸ hma)
          simp [hac, hbc]
          omega
        · simp [hac, hbc]
        · simp [hac, hbc]

/-- Whatever values the draws produce, the Fisher–Yates loop only permutes
its list argument. -/
theorem shuffleLoop_perm {α : Type} (fuel : Nat) :
    ∀ (i : Nat) (x : List α) (g : Gen) (l : List α),
      (shuffleLoop fuel i x g).1 = .ok l → l.Perm x := by
  intro i
  induction i with
  | zero =>
    intro x g l h
    simp only [shuffleLoop, Outcome.ok.injEq] at h
    exact h ▸ List.Perm.refl x
  | succ i ih =>
    intro x g l h
    unfold shuffleLoop at h
    cases hr : (randbelow fuel ((i + 1 + 1 : Nat) : Int) g).1 with
    | ok j =>
      rw [hr] at h
      exact (ih _ _ l h).trans (swap_perm x (i + 1) j)
    | err e => rw [hr] at h; simp at h
    | diverge => rw [hr] at h; simp at h

/-- A completed `choice` returns a member of the sequence: the accepted index
is below the length, so the indexed element is an element. -/
theorem choice_ok_mem {α : Type} (fuel : Nat) (seq : List α) (g : Gen) (v : α)
    (h : (choice fuel seq g).1 = .ok v) : v ∈ seq := by
  match seq with
  | [] => simp [choice] at h
  | a :: rest =>
    simp only [choice] at h
    cases hr : (randbelow fuel (((a :: rest).length : Nat) : Int) g).1 with
    | ok i =>
      rw [hr] at h
      simp only [Outcome.ok.injEq] at h
      have hi := randbelow_ok_lt fuel _ g i hr
      rw [Int.toNat_natCast] at hi
      rw [← h, List.getD_eq_getElem (a :: rest) a hi]
      exact List.getElem_mem hi
    | err e => rw [hr] at h; simp at h
    | diverge => rw [hr] at h; simp at h

/-- C1 as stated is false at `upper = 2`: the code draws candidates with
`bit_size = upper.bit_length() = 2`, but the least `b` with `upper ≤ 2 ^ b`
is `1`.  Observable difference: on the generator `gFF` (every block byte is
`0xFF`) the code's 2-bit candidate is `3`, which is rejected, so with fuel 1
the loop has not returned; the loop the claim describes draws the 1-bit
candidate `1 < 2` and accepts it immediately. -/
theorem randbelow_bitsize_cex :
    bitLength 2 = 2 ∧ (2 : Nat) ≤ 2 ^ 1 ∧
    (randbelow 1 2 gFF).1 = .diverge ∧ (randbelowLoop 2 1 1 gFF).1 = .ok 1 := by
  decide

/-- C1 (amended): for every `upper > 0`, `_randbelow(upper)` draws its
candidates with `_randbits(bit_size)` where `bit_size` is the bit length of
`upper` — the least `b` such that `upper < 2 ^ b` — and returns the first
candidate strictly less than `upper`. -/
theorem randbelow_spec (fuel : Nat) (upper : Int) (h : 0 < upper) (g : Gen) :
    (upper.toNat < 2 ^ bitLength upper.toNat ∧
      ∀ b, upper.toNat < 2 ^ b → bitLength upper.toNat ≤ b) ∧
    randbelow fuel upper g = randbelowLoop upper.toNat (bitLength upper.toNat) fuel g ∧
    (∀ i, i < fuel →
      (∀ m, m < i → ¬ (nthCand (bitLength upper.toNat) m g).1 < upper.toNat) →
      (nthCand (bitLength upper.toNat) i g).1 < upper.toNat →
      randbelow fuel upper g
        = (.ok (nthCand (bitLength upper.toNat) i g).1,
           (nthCand (bitLength upper.toNat) i g).2)) := by
  have hne : ¬ upper ≤ 0 := by omega
  refine ⟨⟨bitLength_lt _, fun b hb => bitLength_min _ b hb⟩, ?_, ?_⟩
  · unfold randbelow
    rw [if_neg hne]
  · intro i hi hmin hacc
    unfold randbelow
    rw [if_neg hne]
    exact randbelowLoop_first _ _ i fuel g hi hmin hacc

theorem randbelow_spec_witness :
    (0 : Int) < 3 ∧
    (nthCand (bitLength (3 : Int).toNat) 0 gZero).1 < (3 : Int).toNat ∧
    randbelow 1 3 gZero
      = (.ok (nthCand (bitLength (3 : Int).toNat) 0 gZero).1,
         (nthCand (bitLength (3 : Int).toNat) 0 gZero).2) :=
  ⟨by decide, by decide,
   (randbelow_spec 1 3 (by decide) gZero).2.2 0 (by decide)
     (fun m hm => absurd hm (Nat.not_lt_zero m)) (by decide)⟩

/-- C2: for every `k ≥ 1`, `_randbits(k)` computes `byte_len = (k + 7) / 8`,
which is `ceil(k / 8)` (the characterization `k ≤ 8 * byte_len < k + 8` pins
it), obtains exactly `byte_len` random bytes, interprets them as a big-endian
unsigned integer, right-shifts by `byte_len * 8 - k` bits, and the result
lies in `[0, 2 ^ k - 1]`. -/
theorem randbits_spec (g : Gen) (hg : WF g) (k : Nat) (hk : 1 ≤ k) :
    k ≤ 8 * ((k + 7) / 8) ∧ 8 * ((k + 7) / 8) < k + 8 ∧
    (random_bytes g (((k + 7) / 8 : Nat) : Int)).1.length = (k + 7) / 8 ∧
    randbits k g
      = (fromBytesBE (random_bytes g (((k + 7) / 8 : Nat) : Int)).1 >>> ((k + 7) / 8 * 8 - k),
         (random_bytes g (((k + 7) / 8 : Nat) : Int)).2) ∧
    (randbits k g).1 < 2 ^ k := by
  have hdm := Nat.div_add_mod (k + 7) 8
  have hmod : (k + 7) % 8 < 8 := Nat.mod_lt _ (by norm_num)
  refine ⟨by omega, by omega, ?_, rfl, randbits_lt k g hg⟩
  rw [random_bytes_length]
  · exact Int.toNat_natCast _
  · exact_mod_cast (show 0 < (k + 7) / 8 by omega)

theorem randbits_spec_witness :
    WF gZero ∧ 1 ≤ 53 ∧ (randbits 53 gZero).1 < 2 ^ 53 :=
  ⟨wf_gZero, by decide, (randbits_spec gZero wf_gZero 53 (by decide)).2.2.2.2⟩

/-- C3: for `upper > 0`, `_randbelow(upper)` only returns values in
`[0, upper)`; for `upper ≤ 0` (zero and all negative inputs) it fails with
`DomainError` with the generator state untouched — no entropy is drawn. -/
theorem randbelow_range (fuel : Nat) (upper : Int) (g : Gen) :
    (upper ≤ 0 → randbelow fuel upper g = (.err .domainError, g)) ∧
    (0 < upper → ∀ v, (randbelow fuel upper g).1 = .ok v →
      0 ≤ (v : Int) ∧ (v : Int) < upper) := by
  constructor
  · intro h
    unfold randbelow
    rw [if_pos h]
  · intro h v hv
    refine ⟨Int.natCast_nonneg v, ?_⟩
    have := randbelow_ok_lt fuel upper g v hv
    omega

theorem randbelow_range_witness :
    randbelow 1 0 gZero = (.err .domainError, gZero) ∧
    (0 ≤ ((0 : Nat) : Int) ∧ ((0 : Nat) : Int) < 3) :=
  ⟨(randbelow_range 1 0 gZero).1 (by decide),
   (randbelow_range 1 3 gZero).2 (by decide) 0 (by decide)⟩

/-- C4: `random()` equals `_randbits(53) / 2 ^ 53` and always lies in
`[0, 1)`, never reaching 1. -/
theorem random_spec (g : Gen) (hg : WF g) :
    random g = (((randbits 53 g).1 : ℚ) / 2 ^ 53, (randbits 53 g).2) ∧
    0 ≤ (random g).1 ∧ (random g).1 < 1 := by
  refine ⟨rfl, ?_, ?_⟩
  · show 0 ≤ ((randbits 53 g).1 : ℚ) / 2 ^ 53
    positivity
  · show ((randbits 53 g).1 : ℚ) / 2 ^ 53 < 1
    rw [div_lt_one (by positivity)]
    have h := randbits_lt 53 g hg
    calc ((randbits 53 g).1 : ℚ) < ((2 ^ 53 : Nat) : ℚ) := by exact_mod_cast h
      _ = 2 ^ 53 := by norm_num

theorem random_spec_witness :
    WF gZero ∧ 0 ≤ (random gZero).1 ∧ (random gZero).1 < 1 :=
  ⟨wf_gZero, (random_spec gZero wf_gZero).2.1, (random_spec gZero wf_gZero).2.2⟩

/-- C10: `_random_bytes(length)` with `length ≤ 0`, including every negative
length, returns the empty byte string with the generator state untouched (no
entropy drawn) and raises no error. -/
theorem random_bytes_nonpos (g : Gen) (length : Int) (h : length ≤ 0) :
    random_bytes g length = ([], g) := by
  unfold random_bytes
  rw [if_pos h]

theorem random_bytes_nonpos_witness :
    (-3 : Int) ≤ 0 ∧ random_bytes gZero (-3) = ([], gZero) :=
  ⟨by decide, random_bytes_nonpos gZero (-3) (by decide)⟩

/-- C5: `randrange(start, stop, step)` fails with `RangeError` exactly when
`step = 0` or the arithmetic progression before `stop` is empty; otherwise
when the underlying `_randbelow(count)` accepts an index the result is
`start + index * step`.  In particular `randrange(10, 100, 5)` only returns
values of `{10, 15, ..., 95}` and `randrange(5, 5)` fails with
`RangeError`. -/
theorem randrange_spec (fuel : Nat) (start : Int) (stop? : Option Int) (step : Int) (g : Gen) :
    ((randrange fuel start stop? step g).1 = .err .rangeError ↔
      step = 0 ∨ rangeLen (rrStart start stop?) (rrStop start stop?) step = 0) ∧
    (∀ e, (randrange fuel start stop? step g).1 = .err e → e = .rangeError) ∧
    (step ≠ 0 → ∀ i : Nat,
      (randbelow fuel ((rangeLen (rrStart start stop?) (rrStop start stop?) step : Nat) : Int) g).1
        = .ok i →
      (randrange fuel start stop? step g).1 = .ok (rrStart start stop? + (i : Int) * step)) ∧
    (∀ v, (randrange fuel 10 (some 100) 5 g).1 = .ok v → 10 ≤ v ∧ v ≤ 95 ∧ v % 5 = 0) ∧
    randrange fuel 5 (some 5) 1 g = (.err .rangeError, g) := by
  have herr : ∀ e, (randrange fuel start stop? step g).1 = .err e →
      e = .rangeError ∧
      (step = 0 ∨ rangeLen (rrStart start stop?) (rrStop start stop?) step = 0) := by
    intro e h
    by_cases hs : step = 0
    · unfold randrange at h
      rw [if_pos hs] at h
      simp only [Outcome.err.injEq] at h
      exact ⟨h.symm, Or.inl hs⟩
    · by_cases hcz : rangeLen (rrStart start stop?) (rrStop start stop?) step ≤ 0
      · unfold randrange at h
        rw [if_neg hs, if_pos hcz] at h
        simp only [Outcome.err.injEq] at h
        exact ⟨h.symm, Or.inr (by omega)⟩
      · exfalso
        unfold randrange at h
        rw [if_neg hs, if_neg hcz] at h
        cases hr : (randbelow fuel
            ((rangeLen (rrStart start stop?) (rrStop start stop?) step : Nat) : Int) g).1 with
        | ok i => rw [hr] at h; simp at h
        | err e' =>
          have := (randbelow_err fuel _ g e' hr).1
          have hpos : (0 : Int) <
              ((rangeLen (rrStart start stop?) (rrStop start stop?) step : Nat) : Int) := by
            exact_mod_cast Nat.pos_of_ne_zero (by omega)
          omega
        | diverge => rw [hr] at h; simp at h
  refine ⟨⟨fun h => (herr _ h).2, ?_⟩, fun e h => (herr e h).1, ?_, ?_, ?_⟩
  · intro h
    unfold randrange
    rcases h with hs | hc
    · rw [if_pos hs]
    · by_cases hs : step = 0
      · rw [if_pos hs]
      · rw [if_neg hs, if_pos (by omega)]
  · intro hs i hok
    have hcz : ¬ rangeLen (rrStart start stop?) (rrStop start stop?) step ≤ 0 := by
      intro hle
      have h0 : rangeLen (rrStart start stop?) (rrStop start stop?) step = 0 := by omega
      rw [h0] at hok
      have := (randbelow_err fuel _ g _ (by
        unfold randbelow
        rw [if_pos (by norm_num : ((0 : Nat) : Int) ≤ 0)])).2
      rw [show (randbelow fuel ((0 : Nat) : Int) g).1 = .err .domainError from by
        unfold randbelow
        rw [if_pos (by norm_num : ((0 : Nat) : Int) ≤ 0)]] at hok
      simp at hok
    unfold randrange
    rw [if_neg hs, if_neg hcz, hok]
  · intro v h
    have h18 : rangeLen (rrStart 10 (some 100)) (rrStop 10 (some 100)) 5 = 18 := by decide
    unfold randrange at h
    rw [if_neg (by norm_num : ¬ (5 : Int) = 0), h18,
        if_neg (by norm_num : ¬ (18 : Nat) ≤ 0)] at h
    cases hr : (randbelow fuel ((18 : Nat) : Int) g).1 with
    | ok i =>
      rw [hr] at h
      simp only [Outcome.ok.injEq, rrStart] at h
      have hi := randbelow_ok_lt fuel _ g i hr
      rw [Int.toNat_natCast] at hi
      omega
    | err e => rw [hr] at h; simp at h
    | diverge => rw [hr] at h; simp at h
  · unfold randrange
    rw [if_neg (by norm_num : ¬ (1 : Int) = 0),
        show rangeLen (rrStart 5 (some 5)) (rrStop 5 (some 5)) 1 = 0 from by decide,
        if_pos (by norm_num : (0 : Nat) ≤ 0)]

theorem randrange_spec_witness :
    (5 : Int) ≠ 0 ∧
    (randbelow 1 ((rangeLen (rrStart 10 (some 100)) (rrStop 10 (some 100)) 5 : Nat) : Int)
      gZero).1 = .ok 0 ∧
    (randrange 1 10 (some 100) 5 gZero).1 = .ok (rrStart 10 (some 100) + ((0 : Nat) : Int) * 5) :=
  ⟨by norm_num, by decide,
   (randrange_spec 1 10 (some 100) 5 gZero).2.2.1 (by norm_num) 0 (by decide)⟩

/-- C6: `choice` fails with `EmptyInputError` on the empty sequence (state
untouched) and otherwise returns the element at index `_randbelow(len(seq))`;
any returned element is a member of the sequence, and `choice(["a"])` can
only return `"a"`. -/
theorem choice_spec {α : Type} (fuel : Nat) (g : Gen) :
    choice fuel ([] : List α) g = (.err .emptyInputError, g) ∧
    (∀ (a : α) (rest : List α) (i : Nat),
      (randbelow fuel (((a :: rest).length : Nat) : Int) g).1 = .ok i →
      (choice fuel (a :: rest) g).1 = .ok ((a :: rest).getD i a)) ∧
    (∀ (seq : List α) (v : α), (choice fuel seq g).1 = .ok v → v ∈ seq) ∧
    (∀ v : String, (choice fuel ["a"] g).1 = .ok v → v = "a") := by
  refine ⟨rfl, ?_, fun seq v h => choice_ok_mem fuel seq g v h, ?_⟩
  · intro a rest i h
    simp only [choice]
    rw [h]
  · intro v h
    have := choice_ok_mem fuel ["a"] g v h
    simpa using this

theorem choice_spec_witness :
    (choice 1 (["a"] : List String) gZero).1 = .ok "a" ∧
    "a" ∈ (["a"] : List String) ∧ ("a" : String) = "a" :=
  ⟨by decide, (@choice_spec String 1 gZero).2.2.1 ["a"] "a" (by decide),
   (@choice_spec String 1 gZero).2.2.2 "a" (by decide)⟩

/-- C7: `shuffle` permutes by Fisher–Yates: it is a no-op for length < 2
(list and state untouched, no entropy drawn); for length ≥ 2 the loop starts
at `i = len - 1` and stops before `i = 0`, and each step with current index
`i + 1` draws `j = _randbelow(i + 2)` and continues on the list with
positions `i + 1` and `j` swapped. -/
theorem shuffle_spec {α : Type} (fuel : Nat) (x : List α) (g : Gen) :
    (x.length < 2 → shuffle fuel x g = (.ok x, g)) ∧
    (2 ≤ x.length → shuffle fuel x g = shuffleLoop fuel (x.length - 1) x g) ∧
    shuffleLoop fuel 0 x g = (.ok x, g) ∧
    (∀ i j : Nat, (randbelow fuel ((i + 1 + 1 : Nat) : Int) g).1 = .ok j →
      shuffleLoop fuel (i + 1) x g
        = shuffleLoop fuel i (swap x (i + 1) j)
            (randbelow fuel ((i + 1 + 1 : Nat) : Int) g).2) := by
  refine ⟨?_, ?_, rfl, ?_⟩
  · intro h
    unfold shuffle
    rw [if_pos h]
  · intro h
    unfold shuffle
    rw [if_neg (by omega)]
  · intro i j hj
    have hstep : shuffleLoop fuel (i + 1) x g
        = match (randbelow fuel ((i + 1 + 1 : Nat) : Int) g).1 with
          | .ok j =>
            shuffleLoop fuel i (swap x (i + 1) j) (randbelow fuel ((i + 1 + 1 : Nat) : Int) g).2
          | .err e => (.err e, (randbelow fuel ((i + 1 + 1 : Nat) : Int) g).2)
          | .diverge => (.diverge, (randbelow fuel ((i + 1 + 1 : Nat) : Int) g).2) := rfl
    rw [hstep, hj]

theorem shuffle_spec_witness :
    ([5] : List Nat).length < 2 ∧ shuffle 1 ([5] : List Nat) gZero = (.ok [5], gZero) ∧
    (randbelow 1 ((0 + 1 + 1 : Nat) : Int) gZero).1 = .ok 0 ∧
    shuffleLoop 1 (0 + 1) ([1, 2] : List Nat) gZero
      = shuffleLoop 1 0 (swap ([1, 2] : List Nat) (0 + 1) 0)
          (randbelow 1 ((0 + 1 + 1 : Nat) : Int) gZero).2 :=
  ⟨by decide, (shuffle_spec 1 [5] gZero).1 (by decide), by decide,
   (shuffle_spec 1 [1, 2] gZero).2.2.2 0 0 (by decide)⟩

/-- C9: whatever values the underlying `_randbelow` draws return, a completed
`shuffle` yields a permutation of the input list: the same elements with the
same multiplicities. -/
theorem shuffle_preserves_contents {α : Type} (fuel : Nat) (x : List α) (g : Gen) (l : List α)
    (h : (shuffle fuel x g).1 = .ok l) : l.Perm x := by
  unfold shuffle at h
  by_cases hlen : x.length < 2
  · rw [if_pos hlen] at h
    simp only [Outcome.ok.injEq] at h
    subst h
    exact List.Perm.refl x
  · rw [if_neg hlen] at h
    exact shuffleLoop_perm fuel _ x g l h

theorem shuffle_preserves_contents_witness :
    (shuffle 1 ([1, 2] : List Nat) gZero).1 = .ok [2, 1] ∧
    ([2, 1] : List Nat).Perm [1, 2] :=
  ⟨by decide, shuffle_preserves_contents 1 [1, 2] gZero [2, 1] (by decide)⟩

/-- C8: generator construction fails with `SeedError` (creating no usable
instance) whenever the `hash_sha3_512` field is missing, its value is not
valid hexadecimal, or the decoded digest is not exactly 64 bytes long;
conversely a successful construction yields precisely a 64-byte hex
decode. -/
theorem fetch_seed_spec :
    fetch_seed none = .error .seedError ∧
    (∀ s : String, fromhex s = none → fetch_seed (some s) = .error .seedError) ∧
    (∀ (s : String) (server_bytes : List Nat), fromhex s = some server_bytes →
      server_bytes.length ≠ 64 → fetch_seed (some s) = .error .seedError) ∧
    (∀ (s : String) (server_bytes : List Nat), fetch_seed (some s) = .ok server_bytes →
      fromhex s = some server_bytes ∧ server_bytes.length = 64) := by
  refine ⟨rfl, ?_, ?_, ?_⟩
  · intro s h
    simp only [fetch_seed]
    by_cases he : s.isEmpty
    · rw [if_pos he]
    · rw [if_neg he, h]
  · intro s bs hfx hlen
    simp only [fetch_seed]
    by_cases he : s.isEmpty
    · rw [if_pos he]
    · rw [if_neg he, hfx]
      simp only
      rw [if_neg hlen]
  · intro s bs h
    simp only [fetch_seed] at h
    by_cases he : s.isEmpty
    · rw [if_pos he] at h
      exact absurd h (by simp)
    · rw [if_neg he] at h
      cases hfx : fromhex s with
      | none =>
        rw [hfx] at h
        exact absurd h (by simp)
      | some bs' =>
        rw [hfx] at h
        simp only at h
        by_cases hl : bs'.length = 64
        · rw [if_pos hl] at h
          simp only [Except.ok.injEq] at h
          subst h
          exact ⟨rfl, hl⟩
        · rw [if_neg hl] at h
          exact absurd h (by simp)

theorem fetch_seed_spec_witness :
    fromhex "zz" = none ∧ fetch_seed (some "zz") = .error .seedError ∧
    fromhex (String.mk (List.replicate 126 '0')) = some (List.replicate 63 0) ∧
    (List.replicate 63 (0 : Nat)).length ≠ 64 ∧
    fetch_seed (some (String.mk (List.replicate 126 '0'))) = .error .seedError ∧
    fromhex "12\n34" = some [18, 52] ∧
    fromhex "0 0" = none ∧ fetch_seed (some "0 0") = .error .seedError :=
  ⟨by decide, fetch_seed_spec.2.1 "zz" (by decide), by decide, by decide,
   fetch_seed_spec.2.2.1 (String.mk (List.replicate 126 '0')) (List.replicate 63 0)
     (by decide) (by decide),
   by decide, by decide, fetch_seed_spec.2.1 "0 0" (by decide)⟩

end CFRand
